import Mathlib

/- Formal model of src/.perf/.scripts/analyze-flamegraph.py: the constant-pool
   decompressor, the call-record extractor, the sample aggregator and the
   hotspot classifier/reporter.  Python strings are modelled as Lean strings
   (lists of characters), Python ints as Nat (all integers in this script come
   from digit-only regex groups), Python dicts as insertion-ordered association
   lists, float percentages as rationals, and a Python runtime exception as
   an Option-type none. -/

set_option maxHeartbeats 1000000

/-- Python slice s[:n] on a list of characters: for nonnegative n it keeps the
first n characters (clamped to the length); for negative n Python keeps
len(s) + n leading characters (clamped at 0, i.e. it drops characters from the
end). -/
def pySlice (s : List Char) (n : Int) : List Char :=
  s.take (if 0 ≤ n then n.toNat else ((s.length : Int) + n).toNat)

/-- One step of the constant-pool decompression loop (analyze-flamegraph.py,
body of the loop at lines 29-36): an empty raw literal decompresses to the
empty string; otherwise the first character's code point minus 32 is the slice
bound applied to the previous decompressed entry, and the remaining characters
are appended as the suffix. -/
def decompressEntry (prev raw : String) : String :=
  match raw.toList with
  | [] => ""
  | c :: suffix => String.mk (pySlice prev.toList ((c.toNat : Int) - 32) ++ suffix)

/-- The decompression loop of lines 28-36, carrying the previous decompressed
entry through the remaining raw literals. -/
def decompressFrom (prev : String) : List String → List String
  | [] => []
  | raw :: rest => decompressEntry prev raw :: decompressFrom (decompressEntry prev raw) rest

/-- Lines 27-36: `cpool = [cpool_raw[0]]` followed by the loop.  On an empty
raw literal list the Python expression cpool_raw[0] raises IndexError, which is
modelled as none. -/
def decompressPool : List String → Option (List String)
  | [] => none
  | r0 :: rest => some (r0 :: decompressFrom r0 rest)

/-- The decompressed pool produced for a non-empty raw literal list. -/
def poolList (r0 : String) (rest : List String) : List String :=
  r0 :: decompressFrom r0 rest


/-- Python int() applied to a decimal-digit string, as produced by a
(\d+) capture group. -/
def natOfDigits (s : String) : Nat :=
  s.toList.foldl (fun a c => a * 10 + (c.toNat - 48)) 0

/-- The width computation shared by the three extraction loops (lines 46-63):
`width = int(match.group(2)) if match.group(2) else 1`.  Python treats a
non-participating group (None) and an empty string as falsy. -/
def widthOfGroup : Option String → Nat
  | none => 1
  | some s => if s.isEmpty then 1 else natOfDigits s

/-- Capture groups of the pattern \bf\((\d+),\d+,\d+(?:,(\d+))? viewed on the
argument list of an f(...) call record: at least three arguments are required,
group 1 is the first argument and optional group 2 is the fourth argument when
present. -/
def fMatchGroups : List String → Option (String × Option String)
  | a :: _ :: _ :: rest => some (a, rest.head?)
  | _ => none

/-- Capture groups of the pattern \bn\((\d+)(?:,(\d+))? on the argument list of
an n(...) call record: group 1 is the first argument and optional group 2 is
the second argument when present. -/
def nMatchGroups : List String → Option (String × Option String)
  | a :: rest => some (a, rest.head?)
  | _ => none

/-- Capture groups of the pattern \bu\((\d+)(?:,(\d+))? on the argument list of
a u(...) call record: group 1 is the first argument and optional group 2 is
the second argument when present. -/
def uMatchGroups : List String → Option (String × Option String)
  | a :: rest => some (a, rest.head?)
  | _ => none

/-- Lines 47-63: each match contributes the pair
(int(group 1), int(group 2) if group 2 else 1) to all_frames. -/
def extractRef (g : String × Option String) : Nat × Nat :=
  (natOfDigits g.1, widthOfGroup g.2)

/-- Add w to the entry of name in an insertion-ordered association list,
appending a fresh entry at the end when the name is absent.  This is
`frame_counts[name] += w` on a defaultdict(int). -/
def bump : List (String × Nat) → String → Nat → List (String × Nat)
  | [], name, w => [(name, w)]
  | (k, v) :: t, name, w =>
    if k = name then (k, v + w) :: t else (k, v) :: bump t name w

/-- Read a defaultdict(int)-style mapping: absent names count 0. -/
def getCount : List (String × Nat) → String → Nat
  | [], _ => 0
  | (k, v) :: t, name => if k = name then v else getCount t name

/-- The names present in the mapping (the dict's key view). -/
def keysOf (m : List (String × Nat)) : List String := m.map Prod.fst

/-- One iteration of the aggregation loop at lines 67-69: a reference whose key
is within the pool bounds adds its width to the count of the resolved frame
name; any other reference leaves the mapping unchanged. -/
def aggStep (pool : List String) (m : List (String × Nat)) (r : Nat × Nat) :
    List (String × Nat) :=
  if r.1 < pool.length then bump m (pool.getD r.1 "") r.2 else m

/-- Lines 66-69: fold the aggregation step over all extracted references,
starting from the empty defaultdict. -/
def aggregate (pool : List String) (refs : List (Nat × Nat)) : List (String × Nat) :=
  refs.foldl (aggStep pool) []

/-- The weight a single reference contributes to a given frame name. -/
def contrib (pool : List String) (r : Nat × Nat) (name : String) : Nat :=
  if r.1 < pool.length ∧ pool.getD r.1 "" = name then r.2 else 0


/-- Whether the character list needle occurs contiguously inside hay. -/
def charsContain (needle : List Char) : List Char → Bool
  | [] => needle.isEmpty
  | c :: t => needle.isPrefixOf (c :: t) || charsContain needle t

/-- Python substring membership `needle in hay` on strings. -/
def strIn (needle hay : String) : Bool := charsContain needle.toList hay.toList

/-- The relevance predicate of find_hotspots (lines 75-78): a frame is
Robin-specific when its name contains one of three fixed substrings. -/
def isRobinFrame (name : String) : Bool :=
  strIn "mimecast/robin" name || strIn "EmailDelivery" name || strIn "EmailReceipt" name

/-- find_hotspots restricted to the mapping view: keep the entries whose frame
name is Robin-specific, in insertion order. -/
def robinOf (fc : List (String × Nat)) : List (String × Nat) :=
  fc.filter (fun p => isRobinFrame p.1)

/-- total weight of a mapping: sum(frame_counts.values()). -/
def totalOf (fc : List (String × Nat)) : Nat := (fc.map Prod.snd).sum

/-- Stable descending insertion of one entry: an entry passes over exactly the
entries whose count is strictly larger, so earlier entries stay ahead of
later entries with the same count. -/
def insertByCount (p : String × Nat) : List (String × Nat) → List (String × Nat)
  | [] => [p]
  | q :: t => if p.2 < q.2 then q :: insertByCount p t else p :: q :: t

/-- Python's sorted(..., key=lambda x: x[1], reverse=True) is the stable
descending sort by count; a stable sort under a fixed total preorder has a
unique result, so the stable insertion sort below computes exactly it. -/
def sortDesc : List (String × Nat) → List (String × Nat)
  | [] => []
  | p :: t => insertByCount p (sortDesc t)

/-- A guarded percentage `(num / den * 100) if den > 0 else 0`. -/
def guardedPct (num den : Nat) : Rat :=
  if den > 0 then (num : Rat) / (den : Rat) * 100 else 0

/-- An unguarded Python division num / den * 100: raises ZeroDivisionError
(modelled as none) when den is 0. -/
def rawPct (num den : Nat) : Option Rat :=
  if den = 0 then none else some ((num : Rat) / (den : Rat) * 100)

/-- Category labels of the categories dict at lines 135-143, in insertion
order, ending with the catch-all label. -/
def catIORead : String := "I/O Reading (LineInputStream, readLine, readMultiline)"

def catSMTP : String := "SMTP Protocol (ServerData, EmailReceipt)"

def catStorage : String := "Storage (LocalStorageClient, StorageProcessor)"

def catLMTP : String := "LMTP Delivery (DovecotStorageProcessor, saveToLmtp)"

def catParsing : String := "Email Parsing (EmailParser, MimeHeader)"

def catConfig : String := "Configuration (Config, Properties)"

def catOther : String := "Other"

def catNames : List String :=
  [catIORead, catSMTP, catStorage, catLMTP, catParsing, catConfig, catOther]

/-- Rule 1 predicate: any(x in frame for x in ['LineInputStream', 'readLine',
'readMultiline', 'SmtpFoundation.read']). -/
def matchesIORead (f : String) : Bool :=
  ["LineInputStream", "readLine", "readMultiline", "SmtpFoundation.read"].any
    (fun x => strIn x f)

/-- Rule 2 predicate: any(x in frame for x in ['ServerData',
'EmailReceipt.process', 'EmailReceipt.run']). -/
def matchesSMTP (f : String) : Bool :=
  ["ServerData", "EmailReceipt.process", "EmailReceipt.run"].any (fun x => strIn x f)

/-- Rule 3 predicate: any(x in frame for x in ['LocalStorageClient',
'StorageProcessor', 'AVStorage', 'SpamStorage']). -/
def matchesStorage (f : String) : Bool :=
  ["LocalStorageClient", "StorageProcessor", "AVStorage", "SpamStorage"].any
    (fun x => strIn x f)

/-- The delivery marker check 'Dovecot' in frame. -/
def hasDovecot (f : String) : Bool := strIn "Dovecot" f

/-- Rule 5 predicate: any(x in frame for x in ['EmailParser', 'MimeHeader',
'EmailBuilder']). -/
def matchesParsing (f : String) : Bool :=
  ["EmailParser", "MimeHeader", "EmailBuilder"].any (fun x => strIn x f)

/-- Rule 6 predicate: any(x in frame for x in ['Config', 'Properties',
'ServerConfig']). -/
def matchesConfig (f : String) : Bool :=
  ["Config", "Properties", "ServerConfig"].any (fun x => strIn x f)

/-- The if/elif classification chain at lines 145-161, including the nested
Dovecot override inside the storage branch. -/
def categoryOf (f : String) : String :=
  if matchesIORead f then catIORead
  else if matchesSMTP f then catSMTP
  else if matchesStorage f then (if !hasDovecot f then catStorage else catLMTP)
  else if hasDovecot f then catLMTP
  else if matchesParsing f then catParsing
  else if matchesConfig f then catConfig
  else catOther

/-- The entries appended to one category bucket by the classification loop, in
loop order. -/
def categoryFrames (rf : List (String × Nat)) (c : String) : List (String × Nat) :=
  rf.filter (fun p => categoryOf p.1 == c)

/-- Total weight collected in one category bucket. -/
def categoryTotal (rf : List (String × Nat)) (c : String) : Nat :=
  totalOf (categoryFrames rf c)

/-- Display transform of line 180: frame.split('/')[-1][:70]. -/
def displayName (s : String) : String :=
  String.mk (((s.splitOn "/").getLastD s).toList.take 70)

/-- The category rollup section of lines 170-182: for each category in fixed
order that received at least one frame, its label, total, two guarded
percentages, and the top five frames by weight with their guarded in-category
percentage and display name. -/
def catRollups (sortedRobin : List (String × Nat)) (total robinTotal : Nat) :
    List (String × Nat × Rat × Rat × List (String × Nat × Rat)) :=
  (catNames.filter (fun c => !(categoryFrames sortedRobin c).isEmpty)).map
    (fun c =>
      (c, categoryTotal sortedRobin c,
        guardedPct (categoryTotal sortedRobin c) total,
        guardedPct (categoryTotal sortedRobin c) robinTotal,
        ((sortDesc (categoryFrames sortedRobin c)).take 5).map
          (fun p => (displayName p.1, p.2,
            guardedPct p.2 (categoryTotal sortedRobin c)))))

/-- The data rendered by main after aggregation: either the fallback top-20
report (no Robin-specific frames) or the full hotspot report with the top-30
lines, the unguarded total-Robin percentage of line 131, and the category
rollups. -/
inductive ReportOutcome where
  | fallbackTop : List (String × Nat × Rat) → ReportOutcome
  | hotspots : List (String × Nat × Rat × Rat) → Rat →
      List (String × Nat × Rat × Rat × List (String × Nat × Rat)) → ReportOutcome

/-- The report computation of main (lines 96-182) from the aggregated mapping
onwards.  All percentage computations except the one at line 131 are guarded
by an explicit zero test; line 131 divides robin_total by total_samples
unconditionally, so that path is modelled with rawPct and the whole run yields
none (ZeroDivisionError) when it divides by zero. -/
def runMain (fc : List (String × Nat)) : Option ReportOutcome :=
  let total := totalOf fc
  let robin := robinOf fc
  if robin.isEmpty then
    some (ReportOutcome.fallbackTop
      (((sortDesc fc).take 20).map (fun p => (p.1, p.2, guardedPct p.2 total))))
  else
    let sortedRobin := sortDesc robin
    let robinTotal := totalOf robin
    let top := (sortedRobin.take 30).map
      (fun p => (p.1, p.2, guardedPct p.2 total, guardedPct p.2 robinTotal))
    match rawPct robinTotal total with
    | none => none
    | some summary =>
      some (ReportOutcome.hotspots top summary (catRollups sortedRobin total robinTotal))


/- Helper lemmas -/

theorem strMk_toList (s : String) : String.mk s.toList = s := rfl

theorem strMk_append (a b : List Char) :
    String.mk (a ++ b) = String.mk a ++ String.mk b := rfl

theorem decompressFrom_length (rest : List String) :
    ∀ prev, (decompressFrom prev rest).length = rest.length := by
  induction rest with
  | nil => intro prev; rfl
  | cons r rs ih => intro prev; simp [decompressFrom, ih]

theorem poolList_get (rest : List String) : ∀ (prev : String) (i : Nat),
    (prev :: decompressFrom prev rest)[i + 1]? =
      (rest[i]?).map
        (fun lit => decompressEntry ((prev :: decompressFrom prev rest).getD i "") lit) := by
  induction rest with
  | nil => intro prev i; simp [decompressFrom]
  | cons r rs ih =>
    intro prev i
    cases i with
    | zero => simp [decompressFrom]
    | succ j =>
      have h := ih (decompressEntry prev r) j
      simpa [decompressFrom] using h

theorem decompressEntry_cons (prev lit : String) (c : Char) (suffix : List Char)
    (hlit : lit.toList = c :: suffix) :
    decompressEntry prev lit =
      String.mk (pySlice prev.toList ((c.toNat : Int) - 32) ++ suffix) := by
  unfold decompressEntry
  rw [hlit]

theorem decompressEntry_nil (prev lit : String) (hlit : lit.toList = []) :
    decompressEntry prev lit = "" := by
  unfold decompressEntry
  rw [hlit]

/- Claim theorems -/

/-- C3 counterexample: on the empty input literal sequence the code does not
return a pool of length 0 — the Python expression cpool_raw[0] raises
IndexError, modelled as none. -/
theorem decompressPool_nil_counterexample : decompressPool [] = none := rfl

/-- C3 (amended to non-empty input): for every non-empty input literal
sequence the decompressor returns a pool whose length equals the number of
input literals, whose first entry is the first literal, and in which every
later entry is obtained from its immediate predecessor alone by the fixed
step function decompressEntry. -/
theorem decompress_length_and_predecessor (r0 : String) (rest : List String) :
    decompressPool (r0 :: rest) = some (poolList r0 rest) ∧
    (poolList r0 rest).length = (r0 :: rest).length ∧
    (poolList r0 rest)[0]? = some r0 ∧
    (∀ i : Nat, (poolList r0 rest)[i + 1]? =
      (rest[i]?).map (fun lit => decompressEntry ((poolList r0 rest).getD i "") lit)) := by
  refine ⟨rfl, ?_, by simp [poolList], fun i => poolList_get rest r0 i⟩
  simp [poolList, decompressFrom_length]

/-- C1: decompression is sequential left-to-right — the first entry is used
verbatim, a subsequent literal with first character code at least 32
decompresses to the previous decompressed entry truncated to (code - 32)
characters followed by the remainder of the literal, and an empty literal
decompresses to the empty string. -/
theorem decompress_sequential (r0 : String) (rest : List String) :
    decompressPool (r0 :: rest) = some (poolList r0 rest) ∧
    (poolList r0 rest)[0]? = some r0 ∧
    (∀ i lit c suffix, rest[i]? = some lit → lit.toList = c :: suffix →
      32 ≤ c.toNat →
      (poolList r0 rest)[i + 1]? =
        some (String.mk
          (((poolList r0 rest).getD i "").toList.take (c.toNat - 32) ++ suffix))) ∧
    (∀ i lit, rest[i]? = some lit → lit.toList = [] →
      (poolList r0 rest)[i + 1]? = some "") := by
  refine ⟨rfl, by simp [poolList], ?_, ?_⟩
  · intro i lit c suffix hi hlit hc
    have h : (poolList r0 rest)[i + 1]? =
        (rest[i]?).map
          (fun lit => decompressEntry ((poolList r0 rest).getD i "") lit) :=
      poolList_get rest r0 i
    rw [hi] at h
    simp only [Option.map_some'] at h
    rw [h, decompressEntry_cons _ _ c suffix hlit]
    have h0 : (0 : Int) ≤ (c.toNat : Int) - 32 := by omega
    have ht : ((c.toNat : Int) - 32).toNat = c.toNat - 32 := by omega
    simp [pySlice, h0, ht]
  · intro i lit hi hlit
    have h : (poolList r0 rest)[i + 1]? =
        (rest[i]?).map
          (fun lit => decompressEntry ((poolList r0 rest).getD i "") lit) :=
      poolList_get rest r0 i
    rw [hi] at h
    simp only [Option.map_some'] at h
    rw [h, decompressEntry_nil _ _ hlit]

/-- C1 witness: the literal sequence ["alpha", chr(32+1)+"xyz"] decompresses
to ["alpha", "axyz"], and the indexed statement of the claim applies to it at
index 0. -/
theorem decompress_sequential_witness :
    ("!xyz".toList = '!' :: "xyz".toList) ∧ 32 ≤ '!'.toNat ∧
    (poolList "alpha" ["!xyz"])[1]? =
      some (String.mk
        (((poolList "alpha" ["!xyz"]).getD 0 "").toList.take ('!'.toNat - 32) ++
          "xyz".toList)) ∧
    decompressPool ["alpha", "!xyz"] = some ["alpha", "axyz"] :=
  ⟨by decide, by decide,
   (decompress_sequential "alpha" ["!xyz"]).2.2.1 0 "!xyz" '!' "xyz".toList rfl
     (by decide) (by decide),
   by decide⟩

/-- C10: decompressing a non-empty literal whose decoded prefix length exceeds
the length of the previous decompressed entry never faults — the prefix is
clamped to the whole previous entry, so the result is the previous entry
concatenated with the literal's suffix. -/
theorem decompressEntry_clamped (prev raw : String) (c : Char) (suffix : List Char)
    (hraw : raw.toList = c :: suffix)
    (hlen : (prev.toList.length : Int) < (c.toNat : Int) - 32) :
    decompressEntry prev raw = prev ++ String.mk suffix := by
  rw [decompressEntry_cons _ _ c suffix hraw]
  have h0 : (0 : Int) ≤ (c.toNat : Int) - 32 := by omega
  have ht : prev.toList.length ≤ ((c.toNat : Int) - 32).toNat := by omega
  rw [pySlice, if_pos h0, List.take_of_length_le ht, strMk_append, strMk_toList]

/-- C10 witness: with previous entry "ab" and literal "Zxyz" the decoded
prefix length 58 exceeds 2, and the result is "ab" followed by "xyz". -/
theorem decompressEntry_clamped_witness :
    ("Zxyz".toList = 'Z' :: "xyz".toList) ∧
    (("ab".toList.length : Int) < ('Z'.toNat : Int) - 32) ∧
    decompressEntry "ab" "Zxyz" = "ab" ++ String.mk "xyz".toList :=
  ⟨by decide, by decide,
   decompressEntry_clamped "ab" "Zxyz" 'Z' "xyz".toList (by decide) (by decide)⟩

theorem getCount_bump (m : List (String × Nat)) (n x : String) (w : Nat) :
    getCount (bump m n w) x = getCount m x + (if n = x then w else 0) := by
  induction m with
  | nil =>
    simp only [bump, getCount]
    split_ifs <;> omega
  | cons p t ih =>
    obtain ⟨k, v⟩ := p
    simp only [bump]
    by_cases hk : k = n
    · subst hk
      rw [if_pos rfl]
      simp only [getCount]
      split_ifs <;> omega
    · rw [if_neg hk]
      simp only [getCount]
      by_cases hx : k = x
      · have hnx : ¬(n = x) := fun hnx => hk (by rw [hx, hnx])
        simp [hx, hnx]
      · simp [hx, ih]

theorem getCount_foldl (pool : List String) (refs : List (Nat × Nat)) :
    ∀ (m : List (String × Nat)) (x : String),
      getCount (refs.foldl (aggStep pool) m) x =
        getCount m x + (refs.map (fun r => contrib pool r x)).sum := by
  induction refs with
  | nil => intro m x; simp
  | cons r t ih =>
    intro m x
    simp only [List.foldl_cons, List.map_cons, List.sum_cons]
    rw [ih]
    have hstep : getCount (aggStep pool m r) x = getCount m x + contrib pool r x := by
      simp only [aggStep, contrib]
      by_cases hb : r.1 < pool.length
      · rw [if_pos hb, getCount_bump]
        by_cases he : pool.getD r.1 "" = x
        · simp [hb, he]
        · simp [hb, he]
      · simp [hb]
    omega

theorem keysOf_bump (m : List (String × Nat)) (n : String) (w : Nat) (x : String) :
    x ∈ keysOf (bump m n w) ↔ x ∈ keysOf m ∨ x = n := by
  induction m with
  | nil => simp [bump, keysOf]
  | cons p t ih =>
    obtain ⟨k, v⟩ := p
    have hb : bump ((k, v) :: t) n w =
        if k = n then (k, v + w) :: t else (k, v) :: bump t n w := rfl
    by_cases hk : k = n
    · subst hk
      rw [hb, if_pos rfl]
      simp only [keysOf, List.map_cons, List.mem_cons]
      tauto
    · rw [hb, if_neg hk]
      simp only [keysOf, List.map_cons, List.mem_cons]
      have ih' := ih
      simp only [keysOf] at ih'
      rw [ih']
      tauto

theorem keysOf_foldl (pool : List String) (refs : List (Nat × Nat)) :
    ∀ (m : List (String × Nat)) (x : String),
      x ∈ keysOf (refs.foldl (aggStep pool) m) ↔
        x ∈ keysOf m ∨ ∃ r ∈ refs, r.1 < pool.length ∧ pool.getD r.1 "" = x := by
  induction refs with
  | nil => intro m x; simp
  | cons r t ih =>
    intro m x
    simp only [List.foldl_cons]
    rw [ih]
    have hstep : aggStep pool m r =
        if r.1 < pool.length then bump m (pool.getD r.1 "") r.2 else m := rfl
    by_cases hb : r.1 < pool.length
    · rw [hstep, if_pos hb, keysOf_bump]
      constructor
      · rintro ((hm | he) | ⟨s, hs, h1, h2⟩)
        · exact Or.inl hm
        · exact Or.inr ⟨r, List.mem_cons_self r t, hb, he.symm⟩
        · exact Or.inr ⟨s, List.mem_cons_of_mem r hs, h1, h2⟩
      · rintro (hm | ⟨s, hs, h1, h2⟩)
        · exact Or.inl (Or.inl hm)
        · rcases List.mem_cons.mp hs with hrfl | hst
          · subst hrfl; exact Or.inl (Or.inr h2.symm)
          · exact Or.inr ⟨s, hst, h1, h2⟩
    · rw [hstep, if_neg hb]
      constructor
      · rintro (hm | ⟨s, hs, h1, h2⟩)
        · exact Or.inl hm
        · exact Or.inr ⟨s, List.mem_cons_of_mem r hs, h1, h2⟩
      · rintro (hm | ⟨s, hs, h1, h2⟩)
        · exact Or.inl hm
        · rcases List.mem_cons.mp hs with hrfl | hst
          · subst hrfl; exact absurd h1 hb
          · exact Or.inr ⟨s, hst, h1, h2⟩

/-- C4: a reference whose key is within pool bounds adds its weight to the
count of the resolved pool entry; a reference whose key is out of range leaves
the mapping unchanged (silently dropped), and every name appearing in the
aggregated mapping is an in-bounds pool entry. -/
theorem aggregation_inbounds_and_drop (pool : List String) (refs : List (Nat × Nat)) :
    (∀ (m : List (String × Nat)) (k w : Nat), pool.length ≤ k →
      aggStep pool m (k, w) = m) ∧
    (∀ (m : List (String × Nat)) (k w : Nat), k < pool.length →
      getCount (aggStep pool m (k, w)) (pool.getD k "") =
        getCount m (pool.getD k "") + w) ∧
    (∀ name, name ∈ keysOf (aggregate pool refs) →
      ∃ k, k < pool.length ∧ pool.getD k "" = name) := by
  refine ⟨?_, ?_, ?_⟩
  · intro m k w hk
    simp [aggStep, Nat.not_lt.mpr hk]
  · intro m k w hk
    simp [aggStep, hk, getCount_bump]
  · intro name hmem
    rcases (keysOf_foldl pool refs [] name).mp hmem with h | ⟨r, _, h1, h2⟩
    · simp [keysOf] at h
    · exact ⟨r.1, h1, h2⟩

/-- C4 witness: over the pool ["foo", "bar"], the out-of-range key 7 is
dropped without effect and the in-bounds key 0 adds its weight 5 to the
count of "foo". -/
theorem aggregation_inbounds_and_drop_witness :
    aggStep ["foo", "bar"] [] (7, 1) = [] ∧
    getCount (aggStep ["foo", "bar"] [] (0, 5)) (["foo", "bar"].getD 0 "") =
      getCount [] (["foo", "bar"].getD 0 "") + 5 :=
  ⟨(aggregation_inbounds_and_drop ["foo", "bar"] []).1 [] 7 1 (by decide),
   (aggregation_inbounds_and_drop ["foo", "bar"] []).2.1 [] 0 5 (by decide)⟩

/-- C5: aggregation is order-independent — for every permutation of the
reference list, the resulting mapping assigns the same total weight to every
name and contains exactly the same set of names. -/
theorem aggregation_order_independent (pool : List String)
    (refs₁ refs₂ : List (Nat × Nat)) (h : refs₁.Perm refs₂) :
    (∀ name, getCount (aggregate pool refs₁) name =
      getCount (aggregate pool refs₂) name) ∧
    (∀ name, name ∈ keysOf (aggregate pool refs₁) ↔
      name ∈ keysOf (aggregate pool refs₂)) := by
  constructor
  · intro name
    simp only [aggregate]
    rw [getCount_foldl, getCount_foldl,
      (h.map (fun r => contrib pool r name)).sum_eq]
  · intro name
    simp only [aggregate]
    rw [keysOf_foldl, keysOf_foldl]
    constructor
    · rintro (h0 | ⟨r, hr, h1, h2⟩)
      · exact Or.inl h0
      · exact Or.inr ⟨r, h.subset hr, h1, h2⟩
    · rintro (h0 | ⟨r, hr, h1, h2⟩)
      · exact Or.inl h0
      · exact Or.inr ⟨r, h.symm.subset hr, h1, h2⟩

/-- C5 witness: the references [(0,5),(1,3),(0,2)] over the pool
["foo","bar"] give the same counts as a shuffled order, namely 7 for "foo"
and 3 for "bar". -/
theorem aggregation_order_independent_witness :
    getCount (aggregate ["foo", "bar"] [(0, 5), (1, 3), (0, 2)]) "foo" =
      getCount (aggregate ["foo", "bar"] [(0, 2), (1, 3), (0, 5)]) "foo" ∧
    getCount (aggregate ["foo", "bar"] [(0, 5), (1, 3), (0, 2)]) "foo" = 7 ∧
    getCount (aggregate ["foo", "bar"] [(0, 5), (1, 3), (0, 2)]) "bar" = 3 :=
  ⟨(aggregation_order_independent ["foo", "bar"] _ _ (by decide)).1 "foo",
   by decide, by decide⟩

theorem insertByCount_perm (p : String × Nat) (l : List (String × Nat)) :
    (insertByCount p l).Perm (p :: l) := by
  induction l with
  | nil => simp [insertByCount]
  | cons q t ih =>
    have heq : insertByCount p (q :: t) =
        if p.2 < q.2 then q :: insertByCount p t else p :: q :: t := rfl
    by_cases hpq : p.2 < q.2
    · rw [heq, if_pos hpq]
      exact (ih.cons q).trans (List.Perm.swap p q t)
    · rw [heq, if_neg hpq]

theorem sortDesc_perm (l : List (String × Nat)) : (sortDesc l).Perm l := by
  induction l with
  | nil => simp [sortDesc]
  | cons p t ih => exact (insertByCount_perm p (sortDesc t)).trans (ih.cons p)

theorem insertByCount_pairwise (p : String × Nat) (l : List (String × Nat))
    (hl : l.Pairwise (fun a b => b.2 ≤ a.2)) :
    (insertByCount p l).Pairwise (fun a b => b.2 ≤ a.2) := by
  induction l with
  | nil => simp [insertByCount]
  | cons q t ih =>
    rw [List.pairwise_cons] at hl
    obtain ⟨hq, ht⟩ := hl
    have heq : insertByCount p (q :: t) =
        if p.2 < q.2 then q :: insertByCount p t else p :: q :: t := rfl
    by_cases hpq : p.2 < q.2
    · rw [heq, if_pos hpq, List.pairwise_cons]
      refine ⟨?_, ih ht⟩
      intro b hb
      rcases List.mem_cons.mp ((insertByCount_perm p t).subset hb) with rfl | hbt
      · exact Nat.le_of_lt hpq
      · exact hq b hbt
    · rw [heq, if_neg hpq, List.pairwise_cons]
      have hqp : q.2 ≤ p.2 := Nat.le_of_not_lt hpq
      refine ⟨?_, List.pairwise_cons.mpr ⟨hq, ht⟩⟩
      intro b hb
      rcases List.mem_cons.mp hb with rfl | hbt
      · exact hqp
      · exact le_trans (hq b hbt) hqp

theorem sortDesc_pairwise (l : List (String × Nat)) :
    (sortDesc l).Pairwise (fun a b => b.2 ≤ a.2) := by
  induction l with
  | nil => simp [sortDesc]
  | cons p t ih => exact insertByCount_pairwise p (sortDesc t) ih

/-- C6: when no frame name is Robin-relevant the reporter does not fail — it
returns the fallback report built from at most the top 20 frames overall,
all drawn from the aggregated mapping, sorted by descending weight, and no
omitted frame outweighs a reported one. -/
theorem fallback_top20 (fc : List (String × Nat)) (h : robinOf fc = []) :
    runMain fc = some (ReportOutcome.fallbackTop
      (((sortDesc fc).take 20).map
        (fun p => (p.1, p.2, guardedPct p.2 (totalOf fc))))) ∧
    ((sortDesc fc).take 20).length ≤ 20 ∧
    ((sortDesc fc).take 20).Pairwise (fun a b => b.2 ≤ a.2) ∧
    (∀ p ∈ (sortDesc fc).take 20, p ∈ fc) ∧
    (∀ p ∈ fc, p ∉ (sortDesc fc).take 20 →
      ∀ q ∈ (sortDesc fc).take 20, p.2 ≤ q.2) := by
  refine ⟨?_, ?_, ?_, ?_, ?_⟩
  · simp [runMain, h]
  · rw [List.length_take]
    omega
  · exact List.Pairwise.sublist (List.take_sublist 20 _) (sortDesc_pairwise fc)
  · intro p hp
    exact (sortDesc_perm fc).subset ((List.take_sublist 20 (sortDesc fc)).subset hp)
  · intro p hp hnot q hq
    have hmem : p ∈ sortDesc fc := (sortDesc_perm fc).symm.subset hp
    have hsplit : sortDesc fc = (sortDesc fc).take 20 ++ (sortDesc fc).drop 20 :=
      (List.take_append_drop 20 _).symm
    have hpd : p ∈ (sortDesc fc).drop 20 := by
      rcases List.mem_append.mp (hsplit ▸ hmem) with h1 | h1
      · exact absurd h1 hnot
      · exact h1
    have hpw := sortDesc_pairwise fc
    rw [hsplit, List.pairwise_append] at hpw
    exact hpw.2.2 q hq p hpd

/-- C6 witness: a mapping with no Robin-relevant frame produces the fallback
top-20 report. -/
theorem fallback_top20_witness :
    runMain [("x", 1), ("y", 5)] = some (ReportOutcome.fallbackTop
      (((sortDesc [("x", 1), ("y", 5)]).take 20).map
        (fun p => (p.1, p.2, guardedPct p.2 (totalOf [("x", 1), ("y", 5)]))))) :=
  (fallback_top20 [("x", 1), ("y", 5)] (by decide)).1

theorem categoryOf_mem (f : String) : categoryOf f ∈ catNames := by
  unfold categoryOf catNames
  split_ifs <;> simp

theorem catNames_nodup : catNames.Nodup := by decide

theorem sum_if_eq_of_nodup (l : List String) (x : String) (w : Nat)
    (hnd : l.Nodup) (hx : x ∈ l) :
    (l.map (fun c => if x = c then w else 0)).sum = w := by
  induction l with
  | nil => simp at hx
  | cons a t ih =>
    rw [List.map_cons, List.sum_cons]
    rcases List.mem_cons.mp hx with rfl | hxt
    · rw [if_pos rfl]
      have hxnt : x ∉ t := (List.nodup_cons.mp hnd).1
      have hz : (t.map (fun c => if x = c then w else 0)).sum = 0 := by
        apply List.sum_eq_zero
        intro y hy
        rcases List.mem_map.mp hy with ⟨c, hc, hcy⟩
        rw [← hcy, if_neg]
        intro hxc
        subst hxc
        exact hxnt hc
      omega
    · have hax : ¬(x = a) := by
        intro hxa
        exact (List.nodup_cons.mp hnd).1 (hxa ▸ hxt)
      rw [if_neg hax, ih (List.nodup_cons.mp hnd).2 hxt]
      omega

theorem sum_map_add (l : List String) (f g : String → Nat) :
    (l.map (fun c => f c + g c)).sum = (l.map f).sum + (l.map g).sum := by
  induction l with
  | nil => rfl
  | cons a t ih =>
    simp only [List.map_cons, List.sum_cons, ih]
    omega

theorem categoryTotal_cons (p : String × Nat) (rf : List (String × Nat)) (c : String) :
    categoryTotal (p :: rf) c =
      (if categoryOf p.1 = c then p.2 else 0) + categoryTotal rf c := by
  by_cases hc : categoryOf p.1 = c <;>
    simp [categoryTotal, categoryFrames, totalOf, List.filter_cons, hc]

theorem sum_categoryTotal (rf : List (String × Nat)) :
    (catNames.map (fun c => categoryTotal rf c)).sum = totalOf rf := by
  induction rf with
  | nil => simp [categoryTotal, categoryFrames, totalOf]
  | cons p t ih =>
    have hmap : catNames.map (fun c => categoryTotal (p :: t) c) =
        catNames.map (fun c => (if categoryOf p.1 = c then p.2 else 0) + categoryTotal t c) :=
      List.map_congr_left (fun c _ => categoryTotal_cons p t c)
    rw [hmap, sum_map_add,
      sum_if_eq_of_nodup catNames (categoryOf p.1) p.2 catNames_nodup (categoryOf_mem p.1),
      ih]
    simp [totalOf]

/-- C7: the classification chain assigns every frame name to exactly one of
the seven category buckets, and the per-category totals over the sorted
relevant subset sum to the total weight of the relevant subset. -/
theorem categorization_partition (fc : List (String × Nat)) :
    (∀ name, catNames.count (categoryOf name) = 1) ∧
    ((catNames.map (fun c => categoryTotal (sortDesc (robinOf fc)) c)).sum =
      totalOf (robinOf fc)) := by
  constructor
  · intro name
    exact List.count_eq_one_of_mem catNames_nodup (categoryOf_mem name)
  · rw [sum_categoryTotal]
    exact ((sortDesc_perm (robinOf fc)).map Prod.snd).sum_eq

/-- C8 counterexample: the relevant frame below matches a storage substring
and contains 'Dovecot', yet it is assigned to the I/O Reading category (the
earlier readLine rule wins), not to LMTP Delivery. -/
theorem storage_dovecot_override_counterexample :
    isRobinFrame "mimecast/robin/readLine/StorageProcessor/Dovecot" = true ∧
    matchesStorage "mimecast/robin/readLine/StorageProcessor/Dovecot" = true ∧
    hasDovecot "mimecast/robin/readLine/StorageProcessor/Dovecot" = true ∧
    categoryOf "mimecast/robin/readLine/StorageProcessor/Dovecot" = catIORead ∧
    catIORead ≠ catLMTP := by
  exact ⟨by decide, by decide, by decide, by decide, by decide⟩

/-- C8 (amended): for every relevant frame name that matches a
storage-category substring and matches neither of the earlier I/O and SMTP
rules, containing 'Dovecot' redirects it to the LMTP Delivery category
instead of Storage — the ordered first-match-wins chain. -/
theorem storage_dovecot_override (f : String)
    (hrel : isRobinFrame f = true)
    (hio : matchesIORead f = false) (hsm : matchesSMTP f = false)
    (hst : matchesStorage f = true) (hd : hasDovecot f = true) :
    categoryOf f = catLMTP := by
  simp [categoryOf, hio, hsm, hst, hd]

/-- C8 witness: a Robin-relevant DovecotStorageProcessor frame matches the
storage substrings, no earlier rule, and lands in LMTP Delivery. -/
theorem storage_dovecot_override_witness :
    isRobinFrame "mimecast/robin/DovecotStorageProcessor.saveToLmtp" = true ∧
    matchesIORead "mimecast/robin/DovecotStorageProcessor.saveToLmtp" = false ∧
    matchesSMTP "mimecast/robin/DovecotStorageProcessor.saveToLmtp" = false ∧
    matchesStorage "mimecast/robin/DovecotStorageProcessor.saveToLmtp" = true ∧
    hasDovecot "mimecast/robin/DovecotStorageProcessor.saveToLmtp" = true ∧
    categoryOf "mimecast/robin/DovecotStorageProcessor.saveToLmtp" = catLMTP :=
  ⟨by decide, by decide, by decide, by decide, by decide,
   storage_dovecot_override _ (by decide) (by decide) (by decide) (by decide)
     (by decide)⟩

/-- C9: for each of the three call-record patterns, the extracted pair takes
the mandatory leading integer argument as its key, and its weight is the
pattern-specific optional integer argument (the fourth argument of an f
record, the second of an n or u record) when present, and is exactly 1 when
that argument is absent. -/
theorem call_record_extraction :
    (∀ a b c, fMatchGroups [a, b, c] = some (a, none) ∧
      extractRef (a, none) = (natOfDigits a, 1)) ∧
    (∀ a b c d rest, fMatchGroups (a :: b :: c :: d :: rest) = some (a, some d) ∧
      (d ≠ "" → extractRef (a, some d) = (natOfDigits a, natOfDigits d))) ∧
    (∀ a, nMatchGroups [a] = some (a, none) ∧
      extractRef (a, none) = (natOfDigits a, 1)) ∧
    (∀ a d rest, nMatchGroups (a :: d :: rest) = some (a, some d) ∧
      (d ≠ "" → extractRef (a, some d) = (natOfDigits a, natOfDigits d))) ∧
    (∀ a, uMatchGroups [a] = some (a, none) ∧
      extractRef (a, none) = (natOfDigits a, 1)) ∧
    (∀ a d rest, uMatchGroups (a :: d :: rest) = some (a, some d) ∧
      (d ≠ "" → extractRef (a, some d) = (natOfDigits a, natOfDigits d))) := by
  refine ⟨fun a b c => ⟨rfl, rfl⟩, fun a b c d rest => ⟨rfl, fun hd => ?_⟩,
    fun a => ⟨rfl, rfl⟩, fun a d rest => ⟨rfl, fun hd => ?_⟩,
    fun a => ⟨rfl, rfl⟩, fun a d rest => ⟨rfl, fun hd => ?_⟩⟩ <;>
  · simp [extractRef, widthOfGroup, String.isEmpty_iff, hd]

/-- C9 witness: an f record with explicit fourth argument "7" extracts weight
7, and an n record with no second argument defaults to weight 1. -/
theorem call_record_extraction_witness :
    extractRef ("12", some "7") = (natOfDigits "12", natOfDigits "7") ∧
    extractRef ("3", none) = (natOfDigits "3", 1) ∧
    natOfDigits "12" = 12 ∧ natOfDigits "7" = 7 :=
  ⟨(call_record_extraction.2.1 "12" "0" "0" "7" []).2 (by decide),
   (call_record_extraction.2.2.1 "3").2, by decide, by decide⟩

/-- C2 at its failing input: a Robin-relevant frame of weight 0 makes the
total sample weight 0 while the Robin subset is non-empty, so the full
report path reaches the unguarded division robin_total/total_samples of
line 131 and the run faults (ZeroDivisionError) instead of printing 0
percentages. -/
theorem zero_total_division_fault :
    totalOf [("mimecast/robin/Frame", 0)] = 0 ∧
    robinOf [("mimecast/robin/Frame", 0)] ≠ [] ∧
    runMain [("mimecast/robin/Frame", 0)] = none :=
  ⟨rfl, by decide, rfl⟩
